import Mathlib

/-!
# Verification of the MIMIC-CXR crawl-download-transcode pipeline

Shallow embedding of `src/scripts/download_MIMIC-CXR.py` and proofs about it.

Modelling conventions:
* Python strings and filesystem paths are Lean `String`s; character-level
  operations (`endswith`, `lower`, `split`, `lstrip`, `os.path.dirname`,
  `os.path.basename`) are implemented over `String.data : List Char`.
* The filesystem is a finite map from path to content plus a record of the
  directories created with `os.makedirs`.
* The remote web (what `requests`/BeautifulSoup observe) is input data: a
  `Site` maps a URL to `some listing` (the parsed anchor list) or to `none`
  (meaning `get_soup` raises, i.e. a network/HTTP/parse failure).  Each
  anchor carries its raw `href` and the already-resolved absolute URL
  (`urljoin(current_url, href)`), since `urljoin` is an external library
  call whose output the crawler consumes as data.
* Opaque external codecs (`pydicom` decode, `cv2.imencode`, `zipfile`,
  `gzip`) are function parameters: decode failure / encode failure /
  archive corruption are their `none` results.
* Python exceptions that the script lets escape are `Except.error` results;
  exceptions the script catches are ordinary branches.
* The `while` loop of `crawl_and_convert_dicom` is embedded with explicit
  fuel; `crawlFuel` is a concrete sufficient bound (proved sufficient for
  the budget-free traversal below).  Running out of fuel is a distinguished
  error, never silently a result.
* Thread-pool completions (`as_completed`) are consumed in submission
  order; the properties proved here do not depend on completion order.
-/

namespace RadJanus

/-! ## Character-list string helpers (Python str / os.path operations) -/

/-- Does the first list occur at the very start of the second?
(Python's startswith, used to build endswith via reversal.) -/
def leadsWith : List Char → List Char → Bool
  | [], _ => true
  | _ :: _, [] => false
  | k :: ks, c :: cs => k == c && leadsWith ks cs

/-- Python `s.endswith(suffix)`. -/
def strEndsWith (s suffix : String) : Bool :=
  leadsWith suffix.data.reverse s.data.reverse

/-- Python `s.lower()` (ASCII is all the script compares). -/
def strLower (s : String) : String :=
  ⟨s.data.map Char.toLower⟩

/-- Index of the first occurrence of `key` in a character list, if any.
Backs Python's `full_url.split(split_key, 1)`. -/
def findSub (key : List Char) : List Char → Option Nat
  | [] => if leadsWith key [] then some 0 else none
  | c :: cs => if leadsWith key (c :: cs) then some 0 else (findSub key cs).map (· + 1)

/-- Python `s.lstrip("/")` on a character list. -/
def lstripSlash (cs : List Char) : List Char :=
  cs.dropWhile (fun c => c == '/')

/-- Python `os.path.basename` on a character list: everything after the
last `/`. -/
def basenameL (cs : List Char) : List Char :=
  ((cs.reverse).takeWhile (fun c => !(c == '/'))).reverse

/-- Python `os.path.dirname`: everything before the last `/` (empty when
there is no `/`). -/
def dirname (p : String) : String :=
  ⟨((p.data.reverse.dropWhile (fun c => !(c == '/'))).drop 1).reverse⟩

/-- Python `os.path.join(a, b)` for the non-absolute `b` the script builds. -/
def joinPath (a b : String) : String :=
  ⟨a.data ++ '/' :: b.data⟩

/-- Python `s[:-n]` (used as `filepath[:-3]` to strip `.gz`). -/
def strDropRight (s : String) (n : Nat) : String :=
  ⟨s.data.take (s.data.length - n)⟩

/-! ## Filesystem model -/

/-- A filesystem: an association list of file paths to contents (first
binding wins) and the set of directories created so far. -/
structure FS where
  files : List (String × String)
  dirs : List String

/-- Lookup in an association list of files. -/
def assocLookup (p : String) : List (String × String) → Option String
  | [] => none
  | kv :: rest => if kv.1 = p then some kv.2 else assocLookup p rest

/-- Remove every binding of a path. -/
def removeAssoc (p : String) : List (String × String) → List (String × String)
  | [] => []
  | kv :: rest => if kv.1 = p then removeAssoc p rest else kv :: removeAssoc p rest

/-- Contents of the file at `p`, if it exists (`os.path.isfile` / `open`). -/
def lookupFile (fs : FS) (p : String) : Option String :=
  assocLookup p fs.files

/-- `open(p, "wb")` followed by writing `c`: create or truncate. -/
def writeFile (p c : String) (fs : FS) : FS :=
  { fs with files := (p, c) :: removeAssoc p fs.files }

/-- `os.remove(p)` (on a present file) or a no-op when absent. -/
def removeFileFS (p : String) (fs : FS) : FS :=
  { fs with files := removeAssoc p fs.files }

/-- `os.makedirs(d, exist_ok=True)`: records the directory. -/
def mkdirs (d : String) (fs : FS) : FS :=
  { fs with dirs := d :: fs.dirs }

/-! ## Remote site model -/

/-- One anchor of a directory listing: the raw `href` attribute (empty when
the anchor has none, matching `link.get('href', '')`) and the absolute URL
`urljoin(current_url, href)`. -/
structure Link where
  href : String
  full : String

/-- The remote web: URL to `some listing` (fetched and parsed fine) or
`none` (the request or parse raises). URLs absent from the list also fail. -/
abbrev Site := List (String × Option (List Link))

/-- `get_soup(url, session)`: the parsed listing, or `none` when
`session.get`/`raise_for_status` raises.  The Python propagates that
exception to its caller; callers of this model do the same. -/
def get_soup : Site → String → Option (List Link)
  | [], _ => none
  | kv :: rest, url => if kv.1 = url then kv.2 else get_soup rest url

/-! ## Transcoder (`dicom_to_jpg`, lines 135-180) -/

/-- The normalization step (lines 148-154): cast the pixel buffer to float,
take `min`/`max`, zero the buffer when `max - min < 1e-6`, otherwise rescale
each sample by `(v - min)/(max - min)*255`, then truncate to `uint8`.
Pixels are exact rationals standing for the float computation, the buffer is
row-major flattened (normalization is pointwise, so shape is irrelevant to
the claims), and `astype(np.uint8)` on the in-range values produced here is
truncation toward zero, i.e. `Int.floor` then `Int.toNat`. -/
def minSample : List ℚ → ℚ
  | [] => 0
  | x :: xs => xs.foldl min x

/-- `arr.max()` over a flattened pixel buffer (0 on the empty buffer, which
`pydicom` never produces). -/
def maxSample : List ℚ → ℚ
  | [] => 0
  | x :: xs => xs.foldl max x

/-- Lines 148-154 of the source: rescale to `[0, 255]` and truncate. -/
def normalize (arr : List ℚ) : List ℕ :=
  let mn := minSample arr
  let mx := maxSample arr
  if mx - mn < 1 / 1000000 then arr.map (fun _ => 0)
  else arr.map (fun v => (⌊((v - mn) / (mx - mn)) * 255⌋).toNat)

/-- The qualities the `while quality >= 10` loop actually tries. -/
def qualityLevels : List ℕ := [90, 80, 70, 60, 50, 40, 30, 20, 10]

/-- The quality-search loop (lines 156-169).  `encode q` is
`cv2.imencode('.jpg', arr, [IMWRITE_JPEG_QUALITY, q])`: `none` means
`ok == False` (the job aborts), `some img` the encoded bytes.  On the last
quality the loop either accepts `img` (length within target) or falls out
of the loop with `encoded is None` and takes `encoded = encimg`, the very
same bytes — hence the single-branch last case. -/
def qualitySearchAux (encode : ℕ → Option String) (target : ℕ) : List ℕ → Option String
  | [] => none
  | [q] => encode q
  | q :: q2 :: rest =>
    match encode q with
    | none => none
    | some img => if img.length ≤ target then some img else qualitySearchAux encode target (q2 :: rest)

/-- The whole search at qualities 90, 80, …, 10. -/
def qualitySearch (encode : ℕ → Option String) (target : ℕ) : Option String :=
  qualitySearchAux encode target qualityLevels

/-- `dicom_to_jpg` (lines 135-180) as a filesystem transition.
`decode` is `pydicom.dcmread(...).pixel_array` applied to the bytes at
`dcm_path` (`none` when either call raises, including a missing file);
`encode arr8 q` is the JPEG encoder on the normalized buffer.
`removeFails` is the environment's verdict on the final `os.remove`
(line 176-179): the `except: pass` swallows its failure either way. -/
def dicom_to_jpg (decode : String → Option (List ℚ))
    (encode : List ℕ → ℕ → Option String) (target : ℕ) (removeFails : Bool)
    (fs : FS) (dcm_path jpg_path : String) : FS :=
  match (lookupFile fs dcm_path).bind decode with
  | none => fs
  | some arr =>
    match qualitySearch (encode (normalize arr)) target with
    | none => fs
    | some encoded =>
      let fs1 := mkdirs (dirname jpg_path) fs
      let fs2 := writeFile jpg_path encoded fs1
      if removeFails then fs2 else removeFileFS dcm_path fs2

/-! ## Downloads (`download_file`, lines 118-132; `download_and_convert`,
lines 295-313) -/

/-- `download_file` (lines 118-132).  `http url` is the body delivered by
`session.get(url, stream=True)`: `none` means `raise_for_status` raises
(non-2xx) — note `os.makedirs` has already run, but the destination is
never opened.  Returns the filesystem plus `some bytes_downloaded` on
success, `none` for the propagated exception. -/
def download_file (http : String → Option String) (fs : FS)
    (file_url local_path : String) : FS × Option ℕ :=
  let fs1 := mkdirs (dirname local_path) fs
  match http file_url with
  | none => (fs1, none)
  | some body => (writeFile local_path body fs1, some body.length)

/-- `download_and_convert` (lines 295-313).  The first `try` catches the
download exception and returns `False`.  The second `try` around
`dicom_to_jpg` only catches exceptions that escape `dicom_to_jpg` itself —
and `dicom_to_jpg` catches its own decode failure and returns early on
encode failure, so in this model (which does not fault filesystem writes)
the conversion step never raises and the unit reports `True` whenever the
download succeeded. -/
def download_and_convert (http : String → Option String)
    (decode : String → Option (List ℚ)) (encode : List ℕ → ℕ → Option String)
    (target : ℕ) (removeFails : Bool) (fs : FS)
    (file_url dcm_path jpg_path : String) : FS × Bool :=
  match download_file http fs file_url dcm_path with
  | (fs1, none) => (fs1, false)
  | (fs1, some _) =>
    (dicom_to_jpg decode encode target removeFails fs1 dcm_path jpg_path, true)

/-! ## Local path derivation (`relative_local_path`, lines 183-193) -/

/-- The split key `"mimic-cxr/2.1.0/"`. -/
def splitKey : List Char := "mimic-cxr/2.1.0/".data

/-- `relative_local_path` (lines 183-193): split on the first occurrence of
the key; if absent fall back to `os.path.basename`, otherwise take what
follows the key and strip leading slashes. -/
def relative_local_path (full_url : String) : String :=
  match findSub splitKey full_url.data with
  | none => ⟨basenameL full_url.data⟩
  | some i => ⟨lstripSlash (full_url.data.drop (i + splitKey.length))⟩

/-! ## Archive extraction (`extract_if_archive`, lines 89-115) -/

/-- Write each zip entry into `folder` in order (`zf.extractall(folder)`). -/
def writeEntries (folder : String) : List (String × String) → FS → FS
  | [], fs => fs
  | e :: rest, fs => writeEntries folder rest (writeFile (joinPath folder e.1) e.2 fs)

/-- `extract_if_archive` (lines 89-115).  `parseZip` stands for
`zipfile.ZipFile(...)` + `extractall` (its `none` is the raised
`Exception`, caught and printed); `ungzip` for `gzip.open` + `copyfileobj`.
A failing gzip stream still leaves the truncated `open(outpath, 'wb')`
output behind (modelled as the empty file), because that file is opened
before decompression runs; the original is only removed after a fully
successful extraction.  All errors are caught: the function is total and
never propagates an exception. -/
def extract_if_archive (parseZip : String → Option (List (String × String)))
    (ungzip : String → Option String) (fs : FS) (filepath : String) : FS :=
  match lookupFile fs filepath with
  | none => fs
  | some content =>
    if strEndsWith (strLower filepath) ".zip" then
      match parseZip content with
      | some entries => removeFileFS filepath (writeEntries (dirname filepath) entries fs)
      | none => fs
    else if strEndsWith (strLower filepath) ".gz" then
      let outpath := strDropRight filepath 3
      match ungzip content with
      | some out => removeFileFS filepath (writeFile outpath out fs)
      | none => writeFile outpath "" fs
    else fs

/-! ## The crawl loop (`crawl_and_convert_dicom`, lines 242-292)

The Python frontier `links_to_visit` is a list used as a stack
(`append` pushes, `pop()` pops the end); here the head of `frontier` is the
top of that stack, so pushing the subdirectories of a listing in order
conses them one after another, i.e. prepends their reversal.  `unit u` is
the Boolean outcome of the `download_and_convert` future for file URL `u`
as observed through `fut.result()` (an exception reaching the
`except Exception` arm counts as `false`: it is printed and does not
increment the counter, exactly like `success == False`). -/

/-- The anchors the loop pushes onto the frontier: `href` present, not the
parent link `'../'`, ending in `/` (lines 261-268). -/
def dirLinks (listing : List Link) : List String :=
  (listing.filter fun l =>
    decide (¬(l.href = "" ∨ l.href = "../")) && strEndsWith l.href "/").map (·.full)

/-- The anchors the loop schedules as DICOM downloads: `href` present, not
`'../'`, not a directory, `.lower()` ending in `.dcm` (lines 261-276). -/
def dcmLinks (listing : List Link) : List String :=
  (listing.filter fun l =>
    decide (¬(l.href = "" ∨ l.href = "../")) && !strEndsWith l.href "/" &&
      strEndsWith (strLower l.href) ".dcm").map (·.full)

/-- The `as_completed` consumer (lines 278-289): stop looking at results
once `dcm_count` reached `max_files`, increment on `success`, and break
again right after the increment that reaches the budget. -/
def consumeResults (max_files : ℕ) : ℕ → List Bool → ℕ
  | c, [] => c
  | c, s :: rest =>
    if max_files ≤ c then c
    else
      let c2 := if s then c + 1 else c
      if max_files ≤ c2 then c2 else consumeResults max_files c2 rest

/-- Why a crawl ends with an exception: the fuel bound was too small (never
the case for `crawlFuel`, see `discoverAux_fuel_sufficient`), or `get_soup`
raised on a directory listing — the Python has no `try` around line 257, so
that exception escapes `crawl_and_convert_dicom` and kills the run. -/
inductive CrawlErr where
  | fuelOut : CrawlErr
  | fetchFailed (url : String) : CrawlErr
deriving DecidableEq

/-- One run of the `while links_to_visit and dcm_count < max_files` loop
(lines 247-292), with arguments `dcm_count`, the frontier stack and the
`visited` set.  On normal termination it yields the final `dcm_count`
together with the trace of URLs actually fetched with `get_soup`, in
order. -/
def crawlAux (site : Site) (unit : String → Bool) (max_files : ℕ) :
    ℕ → ℕ → List String → List String → Except CrawlErr (ℕ × List String)
  | 0, _, _, _ => .error .fuelOut
  | _ + 1, dcm_count, [], _ => .ok (dcm_count, [])
  | fuel + 1, dcm_count, current_url :: rest, visited =>
    if max_files ≤ dcm_count then .ok (dcm_count, [])
    else if current_url ∈ visited then
      crawlAux site unit max_files fuel dcm_count rest visited
    else
      match get_soup site current_url with
      | none => .error (.fetchFailed current_url)
      | some listing =>
        Except.map (fun p => (p.1, current_url :: p.2))
          (crawlAux site unit max_files fuel
            (consumeResults max_files dcm_count ((dcmLinks listing).map unit))
            ((dirLinks listing).reverse ++ rest) (current_url :: visited))

/-- Total number of subdirectory links on the not-yet-visited pages of the
site: every frontier push during a crawl is accounted here, key to the
fuel bound. -/
def unvisitedDirSum (site : Site) (visited : List String) : ℕ :=
  (site.map (fun kv =>
    if kv.1 ∈ visited then 0
    else match kv.2 with
      | some l => (dirLinks l).length
      | none => 0)).sum

/-- A sufficient fuel for the crawl loop: each iteration pops one frontier
entry and pushes only subdirectory links of a freshly visited page. -/
def crawlFuel (site : Site) (frontier visited : List String) : ℕ :=
  frontier.length + unvisitedDirSum site visited + 1

/-- `crawl_and_convert_dicom(session, start_url, save_dir, max_files)`:
run the loop from `dcm_count = 0`, frontier `[start_url]`, empty `visited`.
The Python function returns `None`; the value here is its observable
outcome — the final `dcm_count` (as printed at line 285) with the fetch
trace, or the escaped exception. -/
def crawl_and_convert_dicom (site : Site) (unit : String → Bool)
    (start_url : String) (max_files : ℕ) : Except CrawlErr (ℕ × List String) :=
  crawlAux site unit max_files (crawlFuel site [start_url] []) 0 [start_url] []

/-- The same traversal with no budget and no result trace, counting every
successful unit the crawl tree offers: the formalization of the number of
convertible binary-image files in the crawl tree (duplicated listings of
one file count each time, exactly as the code would download them). -/
def discoverAux (site : Site) (unit : String → Bool) :
    ℕ → ℕ → List String → List String → Except CrawlErr ℕ
  | 0, _, _, _ => .error .fuelOut
  | _ + 1, dcm_count, [], _ => .ok dcm_count
  | fuel + 1, dcm_count, current_url :: rest, visited =>
    if current_url ∈ visited then
      discoverAux site unit fuel dcm_count rest visited
    else
      match get_soup site current_url with
      | none => .error (.fetchFailed current_url)
      | some listing =>
        discoverAux site unit fuel
          (dcm_count + (((dcmLinks listing).map unit).count true))
          ((dirLinks listing).reverse ++ rest) (current_url :: visited)

/-- Number of convertible files in the crawl tree rooted at `start_url`. -/
def totalConvertible (site : Site) (unit : String → Bool) (start_url : String) :
    Except CrawlErr ℕ :=
  discoverAux site unit (crawlFuel site [start_url] []) 0 [start_url] []

/-! ## Concrete instances used to evaluate the definitions -/

/-- An environment in which every download-and-convert unit succeeds. -/
def exUnit : String → Bool := fun _ => true

/-- A small crawl tree with a diamond: `shared` is linked from both `a`
and `b`, and holds two DICOM files. -/
def exSite : Site :=
  [("root", some [⟨"a/", "a"⟩, ⟨"b/", "b"⟩]),
   ("a", some [⟨"shared/", "shared"⟩]),
   ("b", some [⟨"shared/", "shared"⟩]),
   ("shared", some [⟨"x.dcm", "shared/x.dcm"⟩, ⟨"y.dcm", "shared/y.dcm"⟩])]

/-- A site whose directory `bad` fails to list while its sibling `good`
still holds a convertible file. -/
def badSite : Site :=
  [("root", some [⟨"good/", "good"⟩, ⟨"bad/", "bad"⟩]),
   ("good", some [⟨"z.dcm", "good/z.dcm"⟩])]

/-- The dataset root every crawled URL extends. -/
def dataRoot : String := "https://physionet.org/files/mimic-cxr/2.1.0/"

/-- What precedes the split key inside `dataRoot`. -/
def rootStem : String := "https://physionet.org/files/"

/-- Two distinct remote URLs under `dataRoot` (the second has a doubled
slash) that `relative_local_path` sends to the same local path. -/
def collideUrl1 : String := "https://physionet.org/files/mimic-cxr/2.1.0/files/p10/x.dcm"

/-- See `collideUrl1`. -/
def collideUrl2 : String := "https://physionet.org/files/mimic-cxr/2.1.0//files/p10/x.dcm"

/-- An HTTP layer that serves every URL a fixed body. -/
def okHttp : String → Option String := fun _ => some "NOTDICOM"

/-- A decoder that rejects every payload (`pydicom.dcmread` raising on a
corrupt or non-DICOM download). -/
def badDecode : String → Option (List ℚ) := fun _ => none

/-- A decoder succeeding with a fixed two-pixel buffer. -/
def okDecode : String → Option (List ℚ) := fun _ => some [0, 2]

/-- The bytes produced at quality `q` by `stepEncode`: 6 bytes at
qualities 50 and above, 3 bytes below. -/
def stepImage : ℕ → String :=
  fun q => if 50 ≤ q then "bigimg" else "img"

/-- An encoder whose output is 6 bytes at qualities 50 and above, 3 bytes
below. -/
def stepEncode : List ℕ → ℕ → Option String :=
  fun _ q => some (stepImage q)

/-- An encoder that always fails (`cv2.imencode` returning `ok == False`). -/
def failEncode : List ℕ → ℕ → Option String := fun _ _ => none

/-- The empty filesystem. -/
def emptyFS : FS := ⟨[], []⟩

/-- An HTTP layer whose every response has a non-success status. -/
def failHttp : String → Option String := fun _ => none

/-- A filesystem holding one downloaded DICOM file. -/
def exFS : FS := writeFile "d/x.dcm" "RAW" emptyFS

/-- A filesystem holding one zip archive. -/
def zipFS : FS := writeFile "d/arch.zip" "ZBYTES" emptyFS

/-- A zip reader that finds two entries in every archive. -/
def okZip : String → Option (List (String × String)) :=
  fun _ => some [("e1", "C1"), ("e2", "C2")]

/-- A zip reader that raises on every archive. -/
def badZip : String → Option (List (String × String)) := fun _ => none

/-- A filesystem holding one gzip file. -/
def gzFS : FS := writeFile "d/f.txt.gz" "GZBYTES" emptyFS

/-- A gzip stream that decompresses to a fixed text. -/
def okGz : String → Option String := fun _ => some "TEXT"

/-- A gzip stream that raises mid-copy. -/
def badGz : String → Option String := fun _ => none

/-! ## Filesystem lemmas -/

theorem assocLookup_removeAssoc_self (p : String) (l : List (String × String)) :
    assocLookup p (removeAssoc p l) = none := by
  induction l with
  | nil => rfl
  | cons kv rest ih =>
    by_cases h : kv.1 = p
    · simpa [removeAssoc, h] using ih
    · simp [removeAssoc, h, assocLookup, ih]

theorem assocLookup_removeAssoc_other (p q : String) (l : List (String × String))
    (h : q ≠ p) : assocLookup q (removeAssoc p l) = assocLookup q l := by
  induction l with
  | nil => rfl
  | cons kv rest ih =>
    have hpq : p ≠ q := fun hq => h hq.symm
    by_cases hk : kv.1 = p
    · simp [removeAssoc, hk, assocLookup, hpq, ih]
    · by_cases hq : kv.1 = q
      · simp [removeAssoc, hk, hq, assocLookup, h]
      · simp [removeAssoc, hk, assocLookup, hq, ih]

theorem lookupFile_writeFile_self (p c : String) (fs : FS) :
    lookupFile (writeFile p c fs) p = some c := by
  simp [lookupFile, writeFile, assocLookup]

theorem lookupFile_writeFile_other (p c q : String) (fs : FS) (h : q ≠ p) :
    lookupFile (writeFile p c fs) q = lookupFile fs q := by
  have : p ≠ q := fun hq => h hq.symm
  simp [lookupFile, writeFile, assocLookup, this, assocLookup_removeAssoc_other p q _ h]

theorem lookupFile_removeFileFS_self (p : String) (fs : FS) :
    lookupFile (removeFileFS p fs) p = none := by
  simp [lookupFile, removeFileFS, assocLookup_removeAssoc_self]

theorem lookupFile_removeFileFS_other (p q : String) (fs : FS) (h : q ≠ p) :
    lookupFile (removeFileFS p fs) q = lookupFile fs q := by
  simp [lookupFile, removeFileFS, assocLookup_removeAssoc_other p q _ h]

theorem lookupFile_mkdirs (d q : String) (fs : FS) :
    lookupFile (mkdirs d fs) q = lookupFile fs q := rfl

theorem lookupFile_writeEntries_other (folder q : String) :
    ∀ (entries : List (String × String)) (fs : FS),
      (∀ e ∈ entries, joinPath folder e.1 ≠ q) →
      lookupFile (writeEntries folder entries fs) q = lookupFile fs q := by
  intro entries
  induction entries with
  | nil => intro fs _; rfl
  | cons e rest ih =>
    intro fs h
    have hrest : ∀ e2 ∈ rest, joinPath folder e2.1 ≠ q := fun e2 he2 => h e2 (by simp [he2])
    have he : joinPath folder e.1 ≠ q := h e (by simp)
    calc lookupFile (writeEntries folder rest (writeFile (joinPath folder e.1) e.2 fs)) q
        = lookupFile (writeFile (joinPath folder e.1) e.2 fs) q := ih _ hrest
      _ = lookupFile fs q := lookupFile_writeFile_other _ _ _ _ (fun hq => he hq.symm)

theorem lookupFile_writeEntries_mem (folder : String) :
    ∀ (entries : List (String × String)) (fs : FS) (e : String × String),
      e ∈ entries → (entries.map (fun e2 => joinPath folder e2.1)).Nodup →
      lookupFile (writeEntries folder entries fs) (joinPath folder e.1) = some e.2 := by
  intro entries
  induction entries with
  | nil => intro fs e h; cases h
  | cons x rest ih =>
    intro fs e he hnd
    rcases List.mem_cons.mp he with rfl | hmem
    · have hx : ∀ e2 ∈ rest, joinPath folder e2.1 ≠ joinPath folder e.1 := by
        intro e2 he2 hcontra
        have : joinPath folder e.1 ∈ rest.map (fun e2 => joinPath folder e2.1) :=
          List.mem_map.mpr ⟨e2, he2, hcontra⟩
        exact (List.nodup_cons.mp hnd).1 this
      calc lookupFile (writeEntries folder rest (writeFile (joinPath folder e.1) e.2 fs))
              (joinPath folder e.1)
          = lookupFile (writeFile (joinPath folder e.1) e.2 fs) (joinPath folder e.1) :=
            lookupFile_writeEntries_other folder _ rest _ hx
        _ = some e.2 := lookupFile_writeFile_self _ _ _
    · exact ih _ e hmem (List.nodup_cons.mp hnd).2

/-! ## Claim theorems: downloads and filesystem effects -/

/-- Claim C10: for every download task, when the HTTP response has a
non-success status the destination file is never opened or written (the
status check precedes opening the file), so no partial or empty destination
file is created on an HTTP error — although the destination's parent
directories are created unconditionally before the request. -/
theorem download_file_no_partial_on_error (http : String → Option String) (fs : FS)
    (file_url local_path : String) :
    (http file_url = none →
      (download_file http fs file_url local_path).1.files = fs.files ∧
      (download_file http fs file_url local_path).2 = none ∧
      dirname local_path ∈ (download_file http fs file_url local_path).1.dirs) ∧
    (∀ body, http file_url = some body →
      lookupFile (download_file http fs file_url local_path).1 local_path = some body ∧
      (download_file http fs file_url local_path).2 = some body.length ∧
      dirname local_path ∈ (download_file http fs file_url local_path).1.dirs) := by
  refine ⟨fun h => ?_, fun body h => ?_⟩
  · simp [download_file, h, mkdirs]
  · refine ⟨?_, ?_, ?_⟩
    · simp only [download_file, h]
      exact lookupFile_writeFile_self _ _ _
    · simp [download_file, h]
    · simp [download_file, h, mkdirs, writeFile]

/-- Witness for C10 at a concrete failing and a concrete succeeding
request. -/
theorem download_file_no_partial_on_error_witness :
    ((download_file failHttp emptyFS "u" "files/a.dcm").1.files = emptyFS.files ∧
     (download_file failHttp emptyFS "u" "files/a.dcm").2 = none ∧
     dirname "files/a.dcm" ∈ (download_file failHttp emptyFS "u" "files/a.dcm").1.dirs) ∧
    (lookupFile (download_file okHttp emptyFS "u" "files/a.dcm").1 "files/a.dcm"
        = some "NOTDICOM" ∧
     (download_file okHttp emptyFS "u" "files/a.dcm").2 = some "NOTDICOM".length ∧
     dirname "files/a.dcm" ∈ (download_file okHttp emptyFS "u" "files/a.dcm").1.dirs) :=
  ⟨(download_file_no_partial_on_error failHttp emptyFS "u" "files/a.dcm").1 rfl,
   (download_file_no_partial_on_error okHttp emptyFS "u" "files/a.dcm").2 "NOTDICOM" rfl⟩

/-- Claim C9: for every transcode job: on success the source DICOM file is
deleted and a failure of that deletion is silently ignored (the job still
succeeds and the written target stays); on decode failure or on encode
failure at any quality step the job aborts without writing the target file
and the source file is left in place untouched. -/
theorem dicom_to_jpg_effects (decode : String → Option (List ℚ))
    (encode : List ℕ → ℕ → Option String) (target : ℕ) (removeFails : Bool)
    (fs : FS) (dcm_path jpg_path : String) :
    ((lookupFile fs dcm_path).bind decode = none →
      dicom_to_jpg decode encode target removeFails fs dcm_path jpg_path = fs) ∧
    (∀ arr, (lookupFile fs dcm_path).bind decode = some arr →
      qualitySearch (encode (normalize arr)) target = none →
      dicom_to_jpg decode encode target removeFails fs dcm_path jpg_path = fs) ∧
    (∀ arr b, (lookupFile fs dcm_path).bind decode = some arr →
      qualitySearch (encode (normalize arr)) target = some b →
      jpg_path ≠ dcm_path →
      lookupFile (dicom_to_jpg decode encode target removeFails fs dcm_path jpg_path)
          jpg_path = some b ∧
      (removeFails = false →
        lookupFile (dicom_to_jpg decode encode target removeFails fs dcm_path jpg_path)
          dcm_path = none) ∧
      (removeFails = true →
        lookupFile (dicom_to_jpg decode encode target removeFails fs dcm_path jpg_path)
          dcm_path = lookupFile fs dcm_path)) := by
  refine ⟨fun h => by simp [dicom_to_jpg, h],
    fun arr h1 h2 => by simp [dicom_to_jpg, h1, h2],
    fun arr b h1 h2 hne => ?_⟩
  simp only [dicom_to_jpg, h1, h2]
  by_cases hR : removeFails = true
  · rw [if_pos hR]
    refine ⟨lookupFile_writeFile_self _ _ _, fun hcontra => ?_, fun _ => ?_⟩
    · rw [hcontra] at hR; cases hR
    · rw [lookupFile_writeFile_other _ _ _ _ (fun h => hne h.symm)]
      rfl
  · rw [if_neg hR]
    refine ⟨?_, fun _ => lookupFile_removeFileFS_self _ _, fun hcontra => ?_⟩
    · rw [lookupFile_removeFileFS_other _ _ _ hne]
      exact lookupFile_writeFile_self _ _ _
    · exact absurd hcontra hR

/-- Witness for C9: a decode failure, an encode failure and a successful
job on concrete files. -/
theorem dicom_to_jpg_effects_witness :
    dicom_to_jpg badDecode stepEncode 4 false exFS "d/x.dcm" "d/x.jpg" = exFS ∧
    dicom_to_jpg okDecode failEncode 4 false exFS "d/x.dcm" "d/x.jpg" = exFS ∧
    (lookupFile (dicom_to_jpg okDecode stepEncode 4 false exFS "d/x.dcm" "d/x.jpg")
        "d/x.jpg" = some "img" ∧
     (false = false →
       lookupFile (dicom_to_jpg okDecode stepEncode 4 false exFS "d/x.dcm" "d/x.jpg")
         "d/x.dcm" = none) ∧
     (false = true →
       lookupFile (dicom_to_jpg okDecode stepEncode 4 false exFS "d/x.dcm" "d/x.jpg")
         "d/x.dcm" = lookupFile exFS "d/x.dcm")) :=
  ⟨(dicom_to_jpg_effects badDecode stepEncode 4 false exFS "d/x.dcm" "d/x.jpg").1 rfl,
   (dicom_to_jpg_effects okDecode failEncode 4 false exFS "d/x.dcm" "d/x.jpg").2.1
     [0, 2] rfl rfl,
   (dicom_to_jpg_effects okDecode stepEncode 4 false exFS "d/x.dcm" "d/x.jpg").2.2
     [0, 2] "img" rfl rfl (by decide)⟩

/-- Claim C8: for every archive file (.zip or .gz): after a successful
extraction the original archive file no longer exists and every contained
entry exists at its expected path (zip entries in the archive's parent
directory; the gz output at the path with the '.gz' suffix stripped); after
a failed extraction the original archive file still exists unmodified, and
the error is reported without aborting the pipeline (the function is total
and returns a filesystem in every case). -/
theorem extract_if_archive_spec (parseZip : String → Option (List (String × String)))
    (ungzip : String → Option String) (fs : FS) (p : String) :
    (∀ c entries, lookupFile fs p = some c →
      strEndsWith (strLower p) ".zip" = true →
      parseZip c = some entries →
      (entries.map (fun e => joinPath (dirname p) e.1)).Nodup →
      (∀ e ∈ entries, joinPath (dirname p) e.1 ≠ p) →
      lookupFile (extract_if_archive parseZip ungzip fs p) p = none ∧
      ∀ e ∈ entries,
        lookupFile (extract_if_archive parseZip ungzip fs p)
          (joinPath (dirname p) e.1) = some e.2) ∧
    (∀ c, lookupFile fs p = some c →
      strEndsWith (strLower p) ".zip" = true →
      parseZip c = none →
      extract_if_archive parseZip ungzip fs p = fs) ∧
    (∀ c out, lookupFile fs p = some c →
      strEndsWith (strLower p) ".zip" = false →
      strEndsWith (strLower p) ".gz" = true →
      ungzip c = some out →
      strDropRight p 3 ≠ p →
      lookupFile (extract_if_archive parseZip ungzip fs p) p = none ∧
      lookupFile (extract_if_archive parseZip ungzip fs p) (strDropRight p 3)
        = some out) ∧
    (∀ c, lookupFile fs p = some c →
      strEndsWith (strLower p) ".zip" = false →
      strEndsWith (strLower p) ".gz" = true →
      ungzip c = none →
      strDropRight p 3 ≠ p →
      lookupFile (extract_if_archive parseZip ungzip fs p) p = some c) := by
  refine ⟨fun c entries hc hzip hparse hnd hne => ?_, fun c hc hzip hparse => ?_,
    fun c out hc hzip hgz hun hne => ?_, fun c hc hzip hgz hun hne => ?_⟩
  · simp only [extract_if_archive, hc, hzip, hparse, if_true]
    refine ⟨lookupFile_removeFileFS_self _ _, fun e he => ?_⟩
    rw [lookupFile_removeFileFS_other _ _ _ (hne e he)]
    exact lookupFile_writeEntries_mem _ _ _ _ he hnd
  · simp [extract_if_archive, hc, hzip, hparse]
  · simp only [extract_if_archive, hc, hzip, hgz, hun, Bool.false_eq_true, if_false, if_true]
    refine ⟨lookupFile_removeFileFS_self _ _, ?_⟩
    rw [lookupFile_removeFileFS_other _ _ _ hne]
    exact lookupFile_writeFile_self _ _ _
  · simp only [extract_if_archive, hc, hzip, hgz, hun, Bool.false_eq_true, if_false, if_true]
    rw [lookupFile_writeFile_other _ _ _ _ (fun h => hne h.symm)]
    exact hc

/-- Witness for C8: concrete zip success, zip failure, gz success and gz
failure. -/
theorem extract_if_archive_spec_witness :
    (lookupFile (extract_if_archive okZip okGz zipFS "d/arch.zip") "d/arch.zip" = none ∧
     ∀ e ∈ [("e1", "C1"), ("e2", "C2")],
       lookupFile (extract_if_archive okZip okGz zipFS "d/arch.zip")
         (joinPath (dirname "d/arch.zip") e.1) = some e.2) ∧
    extract_if_archive badZip okGz zipFS "d/arch.zip" = zipFS ∧
    (lookupFile (extract_if_archive okZip okGz gzFS "d/f.txt.gz") "d/f.txt.gz" = none ∧
     lookupFile (extract_if_archive okZip okGz gzFS "d/f.txt.gz")
       (strDropRight "d/f.txt.gz" 3) = some "TEXT") ∧
    lookupFile (extract_if_archive okZip badGz gzFS "d/f.txt.gz") "d/f.txt.gz"
      = some "GZBYTES" :=
  ⟨(extract_if_archive_spec okZip okGz zipFS "d/arch.zip").1 "ZBYTES"
      [("e1", "C1"), ("e2", "C2")] rfl rfl rfl (by decide) (by decide),
   (extract_if_archive_spec badZip okGz zipFS "d/arch.zip").2.1 "ZBYTES" rfl rfl rfl,
   (extract_if_archive_spec okZip okGz gzFS "d/f.txt.gz").2.2.1 "GZBYTES" "TEXT"
      rfl (by decide) rfl rfl (by decide),
   (extract_if_archive_spec okZip badGz gzFS "d/f.txt.gz").2.2.2 "GZBYTES"
      rfl (by decide) rfl rfl (by decide)⟩

/-! ## Transcoder lemmas and claims -/

theorem getLastD_irrel {α : Type} (d1 d2 : α) (l : List α) (h : l ≠ []) :
    l.getLastD d1 = l.getLastD d2 := by
  cases l with
  | nil => cases h rfl
  | cons x xs => rw [List.getLastD_cons, List.getLastD_cons]

theorem qualitySearchAux_eq (encode : ℕ → Option String) (target : ℕ) (f : ℕ → String) :
    ∀ qs : List ℕ, qs ≠ [] → (∀ q ∈ qs, encode q = some (f q)) →
    qualitySearchAux encode target qs =
      some (f ((qs.find? (fun q => decide ((f q).length ≤ target))).getD (qs.getLastD 0))) := by
  intro qs
  induction qs with
  | nil => intro h; cases h rfl
  | cons q rest ih =>
    intro _ henc
    have hq1 : encode q = some (f q) := henc q (by simp)
    cases rest with
    | nil =>
      by_cases hq : (f q).length ≤ target
      · simp [qualitySearchAux, hq1, List.find?_cons, hq, List.getLastD]
      · simp [qualitySearchAux, hq1, List.find?_cons, hq, List.getLastD]
    | cons q2 rest2 =>
      by_cases hq : (f q).length ≤ target
      · simp [qualitySearchAux, hq1, hq, List.find?_cons]
      · have hrec : qualitySearchAux encode target (q :: q2 :: rest2)
            = qualitySearchAux encode target (q2 :: rest2) := by
          simp [qualitySearchAux, hq1, hq]
        have hfind : (q :: q2 :: rest2).find? (fun q3 => decide ((f q3).length ≤ target))
            = (q2 :: rest2).find? (fun q3 => decide ((f q3).length ≤ target)) := by
          simp [List.find?_cons, hq]
        have hlast : (q :: q2 :: rest2).getLastD (0 : ℕ) = (q2 :: rest2).getLastD 0 := by
          rw [List.getLastD_cons]
          exact getLastD_irrel q 0 (q2 :: rest2) (by simp)
        rw [hrec, ih (by simp) (fun q3 h3 => henc q3 (by simp [h3])), hfind, hlast]

/-- Claim C4: for every decoded pixel buffer with non-degenerate value
range, the transcoder tries JPEG qualities 90, 80, …, 10 in descending
order and accepts the first encoding whose byte length is within the size
ceiling; if no tested quality satisfies the ceiling, it accepts exactly the
encoding produced at the lowest tested quality (10) — the ceiling is
best-effort, never a hard constraint.  (`find?` on the descending
`qualityLevels` is precisely the first satisfying quality.) -/
theorem qualitySearch_policy (encode : ℕ → Option String) (target : ℕ) (f : ℕ → String)
    (henc : ∀ q ∈ qualityLevels, encode q = some (f q)) :
    qualitySearch encode target =
      some (f ((qualityLevels.find? (fun q => decide ((f q).length ≤ target))).getD 10)) ∧
    ((∀ q ∈ qualityLevels, target < (f q).length) →
      qualitySearch encode target = some (f 10)) := by
  have h1 := qualitySearchAux_eq encode target f qualityLevels (by decide) henc
  have hlast : qualityLevels.getLastD 0 = 10 := by decide
  rw [hlast] at h1
  refine ⟨h1, fun hall => ?_⟩
  have hnone : qualityLevels.find? (fun q => decide ((f q).length ≤ target)) = none := by
    rw [List.find?_eq_none]
    intro q hq
    simp [Nat.not_le.mpr (hall q hq)]
  show qualitySearchAux encode target qualityLevels = some (f 10)
  rw [h1, hnone]
  rfl

/-- Witness for C4 at a concrete encoder whose sizes drop below the
ceiling at quality 40. -/
theorem qualitySearch_policy_witness :
    qualitySearch (stepEncode []) 4 =
      some (stepImage
        ((qualityLevels.find? (fun q => decide ((stepImage q).length ≤ 4))).getD 10)) ∧
    ((∀ q ∈ qualityLevels, 4 < (stepImage q).length) →
      qualitySearch (stepEncode []) 4 = some (stepImage 10)) :=
  qualitySearch_policy (stepEncode []) 4 stepImage (by decide)

theorem foldl_min_le_init (l : List ℚ) (a : ℚ) : l.foldl min a ≤ a := by
  induction l generalizing a with
  | nil => exact le_refl a
  | cons x xs ih => exact le_trans (ih (min a x)) (min_le_left a x)

theorem foldl_min_le_mem (l : List ℚ) (a v : ℚ) (h : v ∈ l) : l.foldl min a ≤ v := by
  induction l generalizing a with
  | nil => cases h
  | cons x xs ih =>
    rcases List.mem_cons.mp h with rfl | hmem
    · exact le_trans (foldl_min_le_init xs (min a v)) (min_le_right a v)
    · exact ih (min a x) hmem

theorem le_foldl_max_init (l : List ℚ) (a : ℚ) : a ≤ l.foldl max a := by
  induction l generalizing a with
  | nil => exact le_refl a
  | cons x xs ih => exact le_trans (le_max_left a x) (ih (max a x))

theorem le_foldl_max_mem (l : List ℚ) (a v : ℚ) (h : v ∈ l) : v ≤ l.foldl max a := by
  induction l generalizing a with
  | nil => cases h
  | cons x xs ih =>
    rcases List.mem_cons.mp h with rfl | hmem
    · exact le_trans (le_max_right a v) (le_foldl_max_init xs (max a v))
    · exact ih (max a x) hmem

theorem minSample_le (l : List ℚ) (v : ℚ) (h : v ∈ l) : minSample l ≤ v := by
  cases l with
  | nil => cases h
  | cons x xs =>
    rcases List.mem_cons.mp h with rfl | hmem
    · exact foldl_min_le_init xs v
    · exact foldl_min_le_mem xs x v hmem

theorem le_maxSample (l : List ℚ) (v : ℚ) (h : v ∈ l) : v ≤ maxSample l := by
  cases l with
  | nil => cases h
  | cons x xs =>
    rcases List.mem_cons.mp h with rfl | hmem
    · exact le_foldl_max_init xs v
    · exact le_foldl_max_mem xs x v hmem

theorem foldl_min_const (c : ℚ) : ∀ xs : List ℚ, (∀ x ∈ xs, x = c) → xs.foldl min c = c := by
  intro xs
  induction xs with
  | nil => intro _; rfl
  | cons x rest ih =>
    intro h
    have hx : x = c := h x (by simp)
    have : min c x = c := by rw [hx, min_self]
    simp only [List.foldl, this]
    exact ih (fun y hy => h y (by simp [hy]))

theorem foldl_max_const (c : ℚ) : ∀ xs : List ℚ, (∀ x ∈ xs, x = c) → xs.foldl max c = c := by
  intro xs
  induction xs with
  | nil => intro _; rfl
  | cons x rest ih =>
    intro h
    have hx : x = c := h x (by simp)
    have : max c x = c := by rw [hx, max_self]
    simp only [List.foldl, this]
    exact ih (fun y hy => h y (by simp [hy]))

/-- Claim C5: for every pixel buffer whose max minus min is below the
epsilon `1e-6`, the normalized 8-bit buffer is all zero and no division by
zero occurs (the function is total) — in particular for any all-equal
buffer, whose max minus min is exactly zero; for every other buffer each
sample is rescaled via `(value - min) / (max - min) * 255` and truncated
to an 8-bit integer landing in `[0, 255]` (the values are naturals, so
`0 ≤ y` is inherent). -/
theorem normalize_range_policy :
    (∀ l : List ℚ, maxSample l - minSample l < 1 / 1000000 →
      normalize l = l.map (fun _ => 0)) ∧
    (∀ (l : List ℚ) (c : ℚ), l ≠ [] → (∀ x ∈ l, x = c) →
      normalize l = l.map (fun _ => 0)) ∧
    (∀ l : List ℚ, ¬ (maxSample l - minSample l < 1 / 1000000) →
      normalize l = l.map (fun v =>
        (⌊((v - minSample l) / (maxSample l - minSample l)) * 255⌋).toNat) ∧
      ∀ y ∈ normalize l, y ≤ 255) := by
  have hzero : ∀ l : List ℚ, maxSample l - minSample l < 1 / 1000000 →
      normalize l = l.map (fun _ => 0) := by
    intro l hlt
    rw [normalize]
    simp only [if_pos hlt]
  refine ⟨hzero, ?_, ?_⟩
  · intro l c hne hall
    cases l with
    | nil => cases hne rfl
    | cons x xs =>
      have hx : x = c := hall x (by simp)
      have hmin : minSample (x :: xs) = c := by
        show xs.foldl min x = c
        rw [hx]
        exact foldl_min_const c xs (fun y hy => hall y (by simp [hy]))
      have hmax : maxSample (x :: xs) = c := by
        show xs.foldl max x = c
        rw [hx]
        exact foldl_max_const c xs (fun y hy => hall y (by simp [hy]))
      exact hzero (x :: xs) (by rw [hmin, hmax, sub_self]; norm_num)
  · intro l hlt
    have hpos : 0 < maxSample l - minSample l :=
      lt_of_lt_of_le (by norm_num) (not_lt.mp hlt)
    have heq : normalize l = l.map (fun v =>
        (⌊((v - minSample l) / (maxSample l - minSample l)) * 255⌋).toNat) := by
      rw [normalize]
      simp only [if_neg hlt]
    refine ⟨heq, fun y hy => ?_⟩
    rw [heq] at hy
    obtain ⟨v, hv, rfl⟩ := List.mem_map.mp hy
    have h1 : v - minSample l ≤ maxSample l - minSample l :=
      sub_le_sub_right (le_maxSample l v hv) _
    have hr : (v - minSample l) / (maxSample l - minSample l) ≤ 1 :=
      (div_le_one hpos).mpr h1
    have hm : (v - minSample l) / (maxSample l - minSample l) * 255 ≤ 255 :=
      mul_le_of_le_one_left (by norm_num) hr
    have hfl : ⌊(v - minSample l) / (maxSample l - minSample l) * 255⌋ ≤ 255 := by
      calc ⌊(v - minSample l) / (maxSample l - minSample l) * 255⌋
          ≤ ⌊(255 : ℚ)⌋ := Int.floor_mono hm
        _ = 255 := by norm_num
    exact Int.toNat_le.mpr hfl

/-- Witness for C5: a near-constant buffer whose samples differ but whose
range is below the epsilon, an all-equal buffer, and a two-valued buffer
with non-degenerate range. -/
theorem normalize_range_policy_witness :
    normalize [(0 : ℚ), 1 / 2000000] = [(0 : ℚ), 1 / 2000000].map (fun _ => 0) ∧
    normalize [(5 : ℚ), 5] = [(5 : ℚ), 5].map (fun _ => 0) ∧
    (normalize [(0 : ℚ), 2] = [(0 : ℚ), 2].map (fun v =>
        (⌊((v - minSample [(0 : ℚ), 2]) /
            (maxSample [(0 : ℚ), 2] - minSample [(0 : ℚ), 2])) * 255⌋).toNat) ∧
     ∀ y ∈ normalize [(0 : ℚ), 2], y ≤ 255) :=
  ⟨normalize_range_policy.1 [(0 : ℚ), 1 / 2000000]
     (by norm_num [maxSample, minSample, List.foldl, max_def, min_def]),
   normalize_range_policy.2.1 [(5 : ℚ), 5] 5 (by simp) (by simp),
   normalize_range_policy.2.2 [(0 : ℚ), 2]
     (by norm_num [maxSample, minSample, List.foldl, max_def, min_def])⟩

/-! ## Claim C2: the unit success flag -/

/-- Claim C2 fails on the code (code bug): a completed unit is supposed to
increment the processed counter only when its conversion actually produced
a JPEG, but `dicom_to_jpg` swallows its own decode failure (line 141-146
prints and returns `None` instead of raising), so the `try` in
`download_and_convert` never fires and the unit still reports `True`.
Evaluation at the failing input: the download succeeds, `pydicom` rejects
the payload, no JPEG exists afterwards — yet the unit reports success, and
feeding that result to the counter loop increments `dcm_count` to 1. -/
theorem download_and_convert_counts_failed_unit :
    (download_and_convert okHttp badDecode stepEncode 1000000 false emptyFS
        "u/f.dcm" "files/f.dcm" "files/f.jpg").2 = true ∧
    lookupFile (download_and_convert okHttp badDecode stepEncode 1000000 false emptyFS
        "u/f.dcm" "files/f.dcm" "files/f.jpg").1 "files/f.jpg" = none ∧
    consumeResults 8000 0
      [(download_and_convert okHttp badDecode stepEncode 1000000 false emptyFS
        "u/f.dcm" "files/f.dcm" "files/f.jpg").2] = 1 :=
  ⟨rfl, rfl, rfl⟩

/-! ## Crawl-loop lemmas -/

theorem consumeResults_min (m : ℕ) : ∀ (l : List Bool) (c : ℕ), c ≤ m →
    consumeResults m c l = min (c + l.count true) m := by
  intro l
  induction l with
  | nil => intro c hc; simp [consumeResults]; omega
  | cons s rest ih =>
    intro c hc
    by_cases h1 : m ≤ c
    · have hcm : c = m := le_antisymm hc h1
      subst hcm
      rw [consumeResults, if_pos h1]
      omega
    · cases s
      · simp only [consumeResults, if_neg h1, Bool.false_eq_true, if_false]
        rw [ih c hc]
        simp [List.count_cons]
      · by_cases h2 : m ≤ c + 1
        · simp only [consumeResults, if_neg h1, if_true, if_pos h2]
          simp [List.count_cons]
          omega
        · simp only [consumeResults, if_neg h1, if_true, if_neg h2]
          rw [ih (c + 1) (by omega)]
          simp [List.count_cons]
          omega

theorem discoverAux_mono (site : Site) (unit : String → Bool) :
    ∀ (fuel c : ℕ) (frontier visited : List String) (N : ℕ),
      discoverAux site unit fuel c frontier visited = .ok N → c ≤ N := by
  intro fuel
  induction fuel with
  | zero => intro c f v N h; simp [discoverAux] at h
  | succ fuel ih =>
    intro c frontier visited N h
    cases frontier with
    | nil =>
      simp [discoverAux] at h
      omega
    | cons cur rest =>
      rw [discoverAux] at h
      by_cases hv : cur ∈ visited
      · rw [if_pos hv] at h
        exact ih _ _ _ _ h
      · rw [if_neg hv] at h
        cases hg : get_soup site cur with
        | none => rw [hg] at h; simp at h
        | some listing =>
          rw [hg] at h
          simp only at h
          have := ih _ _ _ _ h
          omega

theorem discover_to_crawl (site : Site) (unit : String → Bool) (m : ℕ) :
    ∀ (fuel : ℕ) (frontier visited : List String) (cF cB N : ℕ),
      discoverAux site unit fuel cF frontier visited = .ok N →
      cB ≤ m → m - cB ≤ N - cF →
      ∃ tr, crawlAux site unit m fuel cB frontier visited = .ok (m, tr) := by
  intro fuel
  induction fuel with
  | zero => intro f v cF cB N h _ _; simp [discoverAux] at h
  | succ fuel ih =>
    intro frontier visited cF cB N h hcB hgap
    cases frontier with
    | nil =>
      simp [discoverAux] at h
      have hm : cB = m := by omega
      exact ⟨[], by rw [crawlAux, hm]⟩
    | cons cur rest =>
      by_cases hm : m ≤ cB
      · have hbm : cB = m := le_antisymm hcB hm
        exact ⟨[], by rw [crawlAux, if_pos hm, hbm]⟩
      · rw [discoverAux] at h
        by_cases hv : cur ∈ visited
        · rw [if_pos hv] at h
          obtain ⟨tr, htr⟩ := ih rest visited cF cB N h hcB hgap
          exact ⟨tr, by rw [crawlAux, if_neg hm, if_pos hv]; exact htr⟩
        · rw [if_neg hv] at h
          cases hg : get_soup site cur with
          | none => rw [hg] at h; simp at h
          | some listing =>
            rw [hg] at h
            simp only at h
            have hmono := discoverAux_mono site unit fuel _ _ _ _ h
            have hc2 : consumeResults m cB ((dcmLinks listing).map unit)
                = min (cB + ((dcmLinks listing).map unit).count true) m :=
              consumeResults_min m _ cB hcB
            obtain ⟨tr, htr⟩ := ih ((dirLinks listing).reverse ++ rest) (cur :: visited)
              (cF + ((dcmLinks listing).map unit).count true)
              (consumeResults m cB ((dcmLinks listing).map unit)) N h
              (by rw [hc2]; omega) (by rw [hc2]; omega)
            refine ⟨cur :: tr, ?_⟩
            rw [crawlAux, if_neg hm, if_neg hv]
            simp only [hg, htr, Except.map]

theorem crawlAux_count_le (site : Site) (unit : String → Bool) (m : ℕ) :
    ∀ (fuel c : ℕ) (frontier visited : List String) (n : ℕ) (tr : List String),
      c ≤ m → crawlAux site unit m fuel c frontier visited = .ok (n, tr) → n ≤ m := by
  intro fuel
  induction fuel with
  | zero => intro c f v n tr _ h; simp [crawlAux] at h
  | succ fuel ih =>
    intro c frontier visited n tr hc h
    cases frontier with
    | nil =>
      simp [crawlAux] at h
      omega
    | cons cur rest =>
      rw [crawlAux] at h
      by_cases hm : m ≤ c
      · rw [if_pos hm] at h
        simp at h
        omega
      · rw [if_neg hm] at h
        by_cases hv : cur ∈ visited
        · rw [if_pos hv] at h
          exact ih _ _ _ _ _ hc h
        · rw [if_neg hv] at h
          cases hg : get_soup site cur with
          | none => rw [hg] at h; simp at h
          | some listing =>
            rw [hg] at h
            simp only at h
            cases hrec : crawlAux site unit m fuel
                (consumeResults m c ((dcmLinks listing).map unit))
                ((dirLinks listing).reverse ++ rest) (cur :: visited) with
            | error e => rw [hrec] at h; simp [Except.map] at h
            | ok p =>
              obtain ⟨n2, tr2⟩ := p
              rw [hrec] at h
              simp [Except.map] at h
              have hcle : consumeResults m c ((dcmLinks listing).map unit) ≤ m := by
                rw [consumeResults_min m _ c hc]
                omega
              have hn2 := ih _ _ _ _ _ hcle hrec
              omega








theorem crawlAux_trace_nodup (site : Site) (unit : String → Bool) (m : ℕ) :
    ∀ (fuel c : ℕ) (frontier visited : List String) (n : ℕ) (tr : List String),
      crawlAux site unit m fuel c frontier visited = .ok (n, tr) →
      tr.Nodup ∧ ∀ u ∈ tr, u ∉ visited := by
  intro fuel
  induction fuel with
  | zero => intro c f v n tr h; simp [crawlAux] at h
  | succ fuel ih =>
    intro c frontier visited n tr h
    cases frontier with
    | nil =>
      simp [crawlAux] at h
      simp [h.2]
    | cons cur rest =>
      rw [crawlAux] at h
      by_cases hm : m ≤ c
      · rw [if_pos hm] at h
        simp at h
        simp [h.2]
      · rw [if_neg hm] at h
        by_cases hv : cur ∈ visited
        · rw [if_pos hv] at h
          exact ih _ _ _ _ _ h
        · rw [if_neg hv] at h
          cases hg : get_soup site cur with
          | none => rw [hg] at h; simp at h
          | some listing =>
            rw [hg] at h
            simp only at h
            cases hrec : crawlAux site unit m fuel
                (consumeResults m c ((dcmLinks listing).map unit))
                ((dirLinks listing).reverse ++ rest) (cur :: visited) with
            | error e => rw [hrec] at h; simp [Except.map] at h
            | ok p =>
              obtain ⟨n2, tr2⟩ := p
              rw [hrec] at h
              simp only [Except.map, Except.ok.injEq, Prod.mk.injEq] at h
              obtain ⟨ihnd, ihvis⟩ := ih _ _ _ _ _ hrec
              rw [← h.2]
              constructor
              · rw [List.nodup_cons]
                exact ⟨fun hc2 => (ihvis cur hc2) (by simp), ihnd⟩
              · intro u hu
                rcases List.mem_cons.mp hu with rfl | hu2
                · exact hv
                · exact fun hvis => (ihvis u hu2) (by simp [hvis])

/-! ## Claim theorems: the crawl loop -/

/-- Claim C1: for every run configuration, the count of processed items
(`dcm_count`) returned at completion of `crawl_and_convert_dicom` is at
most `max_files`; it equals `max_files` whenever the crawl tree contains at
least `max_files` convertible binary-image files (as counted by the
budget-free traversal `totalConvertible`); and `dcm_count` never exceeds
`max_files` at any point during the run — neither inside one directory's
result loop (`consumeResults`) nor at any intermediate crawl state, which
is exactly the second conjunct quantified over every reachable state. -/
theorem crawl_budget_invariant (site : Site) (unit : String → Bool)
    (start_url : String) (m : ℕ) :
    (∀ (c : ℕ) (res : List Bool), c ≤ m → consumeResults m c res ≤ m) ∧
    (∀ (fuel c : ℕ) (frontier visited : List String) (n : ℕ) (tr : List String),
      c ≤ m → crawlAux site unit m fuel c frontier visited = .ok (n, tr) → n ≤ m) ∧
    (∀ N, totalConvertible site unit start_url = .ok N → m ≤ N →
      ∃ tr, crawl_and_convert_dicom site unit start_url m = .ok (m, tr)) := by
  refine ⟨fun c res hc => ?_,
    fun fuel c f v n tr hc h => crawlAux_count_le site unit m fuel c f v n tr hc h,
    fun N hN hm => ?_⟩
  · rw [consumeResults_min m res c hc]
    omega
  · exact discover_to_crawl site unit m (crawlFuel site [start_url] [])
      [start_url] [] 0 0 N hN (by omega) (by omega)

/-- Witness for C1 on the concrete diamond site: two convertible files
exist, the budget is 1, and the run stops at exactly 1. -/
theorem crawl_budget_invariant_witness :
    consumeResults 1 0 [true] ≤ 1 ∧
    (1 : ℕ) ≤ 1 ∧
    ∃ tr, crawl_and_convert_dicom exSite exUnit "root" 1 = .ok (1, tr) :=
  ⟨(crawl_budget_invariant exSite exUnit "root" 1).1 0 [true] (by decide),
   (crawl_budget_invariant exSite exUnit "root" 1).2.1 6 0 ["root"] [] 1
     ["root", "b", "shared"] (by decide) rfl,
   (crawl_budget_invariant exSite exUnit "root" 1).2.2 2 rfl (by decide)⟩

/-- Claim C3 counterexample: a failure to fetch a directory listing is NOT
non-fatal.  On `badSite` the crawl pops `bad` (whose listing fetch raises)
while its sibling `good` — still on the frontier, holding a convertible
file — is never visited: the run aborts with the escaped exception instead
of continuing with the remaining directories and returning a count. -/
theorem crawl_listing_failure_aborts_cex :
    crawl_and_convert_dicom badSite exUnit "root" 10 = .error (.fetchFailed "bad") ∧
    get_soup badSite "good" = some [⟨"z.dcm", "good/z.dcm"⟩] ∧
    "good" ∈ dirLinks [⟨"good/", "good"⟩, ⟨"bad/", "bad"⟩] :=
  ⟨rfl, rfl, by decide⟩

/-- Claim C3 amended: a failure to fetch or parse a directory listing
during the crawl is fatal — line 257 has no `try`, so the exception
escapes `crawl_and_convert_dicom` and aborts the whole run (just as the
initial authentication check failure aborts it); consequently a run that
completes with a count has successfully fetched every directory listing it
visited. -/
theorem crawl_ok_implies_listings_ok (site : Site) (unit : String → Bool)
    (m fuel c : ℕ) (frontier visited : List String) (n : ℕ) (tr : List String)
    (h : crawlAux site unit m fuel c frontier visited = .ok (n, tr)) :
    ∀ u ∈ tr, get_soup site u ≠ none := by
  induction fuel generalizing c frontier visited n tr with
  | zero => simp [crawlAux] at h
  | succ fuel ih =>
    cases frontier with
    | nil =>
      simp [crawlAux] at h
      simp [h.2]
    | cons cur rest =>
      rw [crawlAux] at h
      by_cases hm : m ≤ c
      · rw [if_pos hm] at h
        simp at h
        simp [h.2]
      · rw [if_neg hm] at h
        by_cases hv : cur ∈ visited
        · rw [if_pos hv] at h
          exact ih _ _ _ _ _ h
        · rw [if_neg hv] at h
          cases hg : get_soup site cur with
          | none => rw [hg] at h; simp at h
          | some listing =>
            rw [hg] at h
            simp only at h
            cases hrec : crawlAux site unit m fuel
                (consumeResults m c ((dcmLinks listing).map unit))
                ((dirLinks listing).reverse ++ rest) (cur :: visited) with
            | error e => rw [hrec] at h; simp [Except.map] at h
            | ok p =>
              obtain ⟨n2, tr2⟩ := p
              rw [hrec] at h
              simp only [Except.map, Except.ok.injEq, Prod.mk.injEq] at h
              rw [← h.2]
              intro u hu
              rcases List.mem_cons.mp hu with rfl | hu2
              · rw [hg]
                exact fun hc2 => by cases hc2
              · exact ih _ _ _ _ _ hrec u hu2

/-- Witness for C3's amended statement at a completed concrete run. -/
theorem crawl_ok_implies_listings_ok_witness :
    get_soup exSite "root" ≠ none :=
  crawl_ok_implies_listings_ok exSite exUnit 100 6 0 ["root"] [] 2
    ["root", "b", "shared", "a"] rfl "root" (by decide)

/-- Claim C6: for every frontier traversal, each directory location is
fetched at most once even when reachable from multiple parents (the fetch
trace of any completed run has no duplicates, and — since a location joins
`visited` at the moment it is popped, before its listing is fetched — no
fetched location was in `visited` beforehand); and everything the loop adds
to the frontier comes from an anchor whose href is present, is not exactly
`'../'`, and ends in `/`, so the parent-navigation anchor is never added to
the frontier. -/
theorem crawl_visited_once (site : Site) (unit : String → Bool)
    (m fuel c : ℕ) (frontier visited : List String) (n : ℕ) (tr : List String)
    (h : crawlAux site unit m fuel c frontier visited = .ok (n, tr)) :
    (tr.Nodup ∧ ∀ u ∈ tr, u ∉ visited) ∧
    (∀ (listing : List Link) (u : String), u ∈ dirLinks listing →
      ∃ l, l ∈ listing ∧ l.full = u ∧ l.href ≠ "../" ∧ l.href ≠ "" ∧
        strEndsWith l.href "/" = true) := by
  refine ⟨crawlAux_trace_nodup site unit m fuel c frontier visited n tr h, ?_⟩
  intro listing u hu
  obtain ⟨l, hl, rfl⟩ := List.mem_map.mp hu
  obtain ⟨hmem, hpred⟩ := List.mem_filter.mp hl
  rw [Bool.and_eq_true, decide_eq_true_eq] at hpred
  push_neg at hpred
  exact ⟨l, hmem, rfl, hpred.1.2, hpred.1.1, hpred.2⟩

/-- Witness for C6 on the diamond site: `shared` is linked from both `a`
and `b` yet fetched once. -/
theorem crawl_visited_once_witness :
    ((["root", "b", "shared", "a"] : List String).Nodup ∧
      ∀ u ∈ (["root", "b", "shared", "a"] : List String), u ∉ ([] : List String)) ∧
    (∀ (listing : List Link) (u : String), u ∈ dirLinks listing →
      ∃ l, l ∈ listing ∧ l.full = u ∧ l.href ≠ "../" ∧ l.href ≠ "" ∧
        strEndsWith l.href "/" = true) :=
  crawl_visited_once exSite exUnit 100 6 0 ["root"] [] 2
    ["root", "b", "shared", "a"] rfl

/-! ## Claim C7: the local-path derivation -/

theorem leadsWith_self : ∀ l : List Char, leadsWith l l = true := by
  intro l
  induction l with
  | nil => rfl
  | cons c cs ih => simp [leadsWith, ih]

theorem leadsWith_append (key : List Char) : ∀ (X a : List Char),
    key.length ≤ X.length → leadsWith key (X ++ a) = leadsWith key X := by
  induction key with
  | nil => intro X a _; rfl
  | cons k ks ih =>
    intro X a h
    cases X with
    | nil => simp at h
    | cons x xs =>
      show leadsWith (k :: ks) (x :: (xs ++ a)) = leadsWith (k :: ks) (x :: xs)
      simp only [leadsWith]
      rw [ih xs a (by simpa using h)]

theorem findSub_canonical : ∀ (P key a : List Char),
    (∀ i, i < P.length → leadsWith key ((P ++ key).drop i) = false) →
    findSub key (P ++ key ++ a) = some P.length := by
  intro P
  induction P with
  | nil =>
    intro key a _
    show findSub key (key ++ a) = some 0
    cases key with
    | nil =>
      cases a with
      | nil => rfl
      | cons c cs => rfl
    | cons k ks =>
      have hc : leadsWith (k :: ks) (k :: (ks ++ a)) = true := by
        simp only [leadsWith, beq_self_eq_true, Bool.true_and]
        rw [leadsWith_append ks ks a (le_refl _)]
        exact leadsWith_self ks
      show findSub (k :: ks) (k :: (ks ++ a)) = some 0
      rw [findSub, if_pos hc]
  | cons p P2 ih =>
    intro key a h
    have h0 : leadsWith key (p :: (P2 ++ key)) = false := by
      simpa using h 0 (by simp)
    have hfalse : leadsWith key (p :: (P2 ++ key ++ a)) = false := by
      have hx : leadsWith key ((p :: (P2 ++ key)) ++ a) = leadsWith key (p :: (P2 ++ key)) :=
        leadsWith_append key (p :: (P2 ++ key)) a (by simp; omega)
      exact hx.trans h0
    have h2 : ∀ i, i < P2.length → leadsWith key ((P2 ++ key).drop i) = false := by
      intro i hi
      have := h (i + 1) (by simp; omega)
      simpa [List.drop_succ_cons] using this
    show findSub key (p :: (P2 ++ key ++ a)) = some (P2.length + 1)
    rw [findSub, if_neg (by rw [hfalse]; simp), ih key a h2]
    rfl

theorem lstripSlash_id (a : List Char) (h : a.head? ≠ some '/') :
    lstripSlash a = a := by
  cases a with
  | nil => rfl
  | cons c t =>
    have hc : ¬((c == '/') = true) := by
      simp only [beq_iff_eq]
      intro hcc
      exact h (by simp [hcc])
    simp [lstripSlash, List.dropWhile_cons, hc]

theorem relative_local_path_concat (a : List Char) (h : a.head? ≠ some '/') :
    relative_local_path ⟨dataRoot.data ++ a⟩ = ⟨a⟩ := by
  have hsplit : dataRoot.data = rootStem.data ++ splitKey := by decide
  have hocc : ∀ i, i < rootStem.data.length →
      leadsWith splitKey ((rootStem.data ++ splitKey).drop i) = false := by decide
  have hfind : findSub splitKey (dataRoot.data ++ a) = some rootStem.data.length := by
    rw [hsplit]
    exact findSub_canonical rootStem.data splitKey a hocc
  have hstep : relative_local_path ⟨dataRoot.data ++ a⟩ =
      ⟨lstripSlash ((dataRoot.data ++ a).drop (rootStem.data.length + splitKey.length))⟩ := by
    show (match findSub splitKey (dataRoot.data ++ a) with
      | none => (⟨basenameL (dataRoot.data ++ a)⟩ : String)
      | some i => ⟨lstripSlash ((dataRoot.data ++ a).drop (i + splitKey.length))⟩) =
      ⟨lstripSlash ((dataRoot.data ++ a).drop (rootStem.data.length + splitKey.length))⟩
    rw [hfind]
  have hdrop : (dataRoot.data ++ a).drop (rootStem.data.length + splitKey.length) = a := by
    rw [hsplit, ← List.length_append]
    exact List.drop_left _ _
  rw [hstep, hdrop, lstripSlash_id a h]

/-- Claim C7 counterexample: the derivation is NOT injective on all
distinct remote file URLs under the fixed dataset prefix.  The two URLs
differ only by a doubled slash right after the prefix, both extend
`dataRoot`, and they map to the same relative path and to the same joined
local path (`os.path.join(save_dir, ...)` with any fixed `save_dir`),
because `split(key, 1)` is followed by `lstrip('/')`. -/
theorem relative_local_path_collision_cex :
    collideUrl1 ≠ collideUrl2 ∧
    leadsWith dataRoot.data collideUrl1.data = true ∧
    leadsWith dataRoot.data collideUrl2.data = true ∧
    relative_local_path collideUrl1 = relative_local_path collideUrl2 ∧
    joinPath "Dataset" (relative_local_path collideUrl1)
      = joinPath "Dataset" (relative_local_path collideUrl2) :=
  ⟨by decide, by decide, by decide, rfl, rfl⟩

/-- Claim C7 amended: the remote-to-local mapping is deterministic (it is
a pure function of the URL string, so two calls on the same URL are
definitionally equal), and it is injective on the RemoteLocations the
crawl actually builds: URLs of the form `dataRoot ++ suffix` whose suffix
does not begin with a slash.  Two distinct such URLs never collide; only
suffixes differing by leading slashes (the counterexample) can. -/
theorem relative_local_path_injective (a b : List Char)
    (ha : a.head? ≠ some '/') (hb : b.head? ≠ some '/')
    (h : relative_local_path ⟨dataRoot.data ++ a⟩ =
      relative_local_path ⟨dataRoot.data ++ b⟩) :
    (⟨dataRoot.data ++ a⟩ : String) = ⟨dataRoot.data ++ b⟩ := by
  rw [relative_local_path_concat a ha, relative_local_path_concat b hb] at h
  have hab : a = b := congrArg String.data h
  rw [hab]

/-- Witness for C7's amended statement at a concrete crawled URL. -/
theorem relative_local_path_injective_witness :
    (⟨dataRoot.data ++ "files/p10/x.dcm".data⟩ : String) =
      ⟨dataRoot.data ++ "files/p10/x.dcm".data⟩ :=
  relative_local_path_injective "files/p10/x.dcm".data "files/p10/x.dcm".data
    (by decide) (by decide) rfl

end RadJanus

